import Mathlib

/-
Verification of the mciso inventory-optimization repository.

The repository builds (via Pyomo) a stochastic mixed-integer program that
decides monthly order quantities for several SKUs under demand scenarios.
We embed the two model formulations (src/mciso/model.py and
src/mciso/model-one-product.py) shallowly: a model instance is a parameter
record, an assignment of the decision variables, a feasibility predicate
collecting exactly the declared constraints and variable domains, and the
objective function.  Machine reals are embedded as rationals; the
NonNegativeIntegers / Binary Pyomo domains become Nat-valued variables with
the corresponding bounds in the feasibility predicate.
-/

set_option maxHeartbeats 1000000
set_option linter.unusedVariables false

/-- big-M constant `_bigM = 1e5` from model.py / model-one-product.py. -/
def bigM : ℚ := 100000

/-- Parameters of the multi-product model (model.py `create_model`).
Index parameters are the sizes of the 1-based range sets I, J, K; the
data parameters are total functions whose values outside the declared
index ranges are irrelevant (no constraint mentions them). -/
structure MParams where
  n_months : ℕ
  n_scenarios : ℕ
  n_skus : ℕ
  D : ℕ → ℕ → ℕ → ℚ
  SP : ℕ → ℚ
  UP : ℕ → ℚ
  W : ℕ → ℚ
  O : ℕ → ℚ
  L : ℕ → ℚ
  MOQ : ℕ → ℚ
  BI : ℕ → ℚ
  UB : ℚ
  LB : ℕ → ℚ

/-- Month index set `I = RangeSet(1, n_months)`. -/
abbrev MParams.I (p : MParams) : Finset ℕ := Finset.Icc 1 p.n_months

/-- Scenario index set `J = RangeSet(1, n_scenarios)`. -/
abbrev MParams.J (p : MParams) : Finset ℕ := Finset.Icc 1 p.n_scenarios

/-- SKU index set `K = RangeSet(1, n_skus)`. -/
abbrev MParams.K (p : MParams) : Finset ℕ := Finset.Icc 1 p.n_skus

/-- Decision variables of the multi-product model.  `X` is declared over
NonNegativeIntegers, `z` over Binary (we use ℕ with a `≤ 1` domain
constraint), the recourse variables over NonNegativeReals. -/
structure MVars where
  X : ℕ → ℕ → ℕ
  V : ℕ → ℕ → ℕ → ℚ
  S : ℕ → ℕ → ℕ → ℚ
  s : ℕ → ℕ → ℕ → ℚ
  d : ℕ → ℕ → ℕ → ℚ
  z : ℕ → ℕ → ℕ

/-- Variable domain constraints of the multi-product model: the
NonNegativeReals recourse variables are nonnegative and `z` is binary. -/
abbrev mDomains (p : MParams) (a : MVars) : Prop :=
  (∀ i ∈ p.I, ∀ j ∈ p.J, ∀ k ∈ p.K,
    0 ≤ a.V i j k ∧ 0 ≤ a.S i j k ∧ 0 ≤ a.s i j k ∧ 0 ≤ a.d i j k) ∧
  (∀ i ∈ p.I, ∀ k ∈ p.K, a.z i k ≤ 1)

/-- `_const_surplus_deficit` of model.py: volume + surplus = stock. -/
abbrev mConstSurplusDeficit (p : MParams) (a : MVars) : Prop :=
  ∀ i ∈ p.I, ∀ j ∈ p.J, ∀ k ∈ p.K, a.V i j k + a.s i j k = a.S i j k

/-- `_const_stock1` of model.py: first-period stock. -/
abbrev mConstStock1 (p : MParams) (a : MVars) : Prop :=
  ∀ j ∈ p.J, ∀ k ∈ p.K, a.S 1 j k = (a.X 1 k : ℚ) + p.BI k

/-- `_const_stock` of model.py: generated over all of I × J × K, but the
rule returns `Constraint.Skip` (here: `True`) when `i <= 1`. -/
abbrev mConstStock (p : MParams) (a : MVars) : Prop :=
  ∀ i ∈ p.I, ∀ j ∈ p.J, ∀ k ∈ p.K,
    if i ≤ 1 then True else a.S i j k = (a.X i k : ℚ) + a.s (i - 1) j k

/-- `_const_stock_buffer` of model.py: min stock buffer. -/
abbrev mConstStockBuffer (p : MParams) (a : MVars) : Prop :=
  ∀ i ∈ p.I, ∀ j ∈ p.J, ∀ k ∈ p.K, a.S i j k - a.V i j k ≥ p.LB k

/-- `_const_stock_max` of model.py: cap on capital tied to inventory. -/
abbrev mConstStockMax (p : MParams) (a : MVars) : Prop :=
  ∀ i ∈ p.I, ∀ j ∈ p.J, (Finset.sum p.K fun k => a.S i j k * p.UP k) ≤ p.UB

/-- `_const_volume_bounds_demand` of model.py: volume + deficit = demand. -/
abbrev mConstVolumeBoundsDemand (p : MParams) (a : MVars) : Prop :=
  ∀ i ∈ p.I, ∀ j ∈ p.J, ∀ k ∈ p.K, a.V i j k + a.d i j k = p.D i j k

/-- `_const_moq1` of model.py: X >= MOQ * z. -/
abbrev mConstMoq1 (p : MParams) (a : MVars) : Prop :=
  ∀ i ∈ p.I, ∀ k ∈ p.K, (a.X i k : ℚ) ≥ p.MOQ k * (a.z i k : ℚ)

/-- `_const_moq2` of model.py: X <= bigM * z. -/
abbrev mConstMoq2 (p : MParams) (a : MVars) : Prop :=
  ∀ i ∈ p.I, ∀ k ∈ p.K, (a.X i k : ℚ) ≤ bigM * (a.z i k : ℚ)

/-- Feasible solutions of the multi-product model: all declared variable
domains and all constraints of model.py `create_model`. -/
abbrev MFeasible (p : MParams) (a : MVars) : Prop :=
  mDomains p a ∧ mConstSurplusDeficit p a ∧ mConstStock1 p a ∧ mConstStock p a ∧
  mConstStockBuffer p a ∧ mConstStockMax p a ∧ mConstVolumeBoundsDemand p a ∧
  mConstMoq1 p a ∧ mConstMoq2 p a

/-- `obj_expression` of model.py: expected net margin minus shipping cost. -/
def mObj (p : MParams) (a : MVars) : ℚ :=
  (Finset.sum p.I fun i => Finset.sum p.J fun j => Finset.sum p.K fun k =>
      (p.SP k - p.UP k) * a.V i j k - p.W k * a.s i j k - p.O k * a.d i j k)
    / (p.n_scenarios : ℚ)
  - Finset.sum p.I fun i => Finset.sum p.K fun k => p.L k * (a.z i k : ℚ)

/-- Objective sense declared in model.py (`sense=pyo.maximize`). -/
inductive ObjSense where
  | maximize
  | minimize
deriving DecidableEq

/-- model.py declares its objective with `sense=pyo.maximize`. -/
def mObjSense : ObjSense := ObjSense.maximize

/-- A small concrete multi-product instance (2 months, 1 scenario, 1 SKU,
zero demand, zero costs and bounds) used to witness feasibility facts. -/
def pW : MParams where
  n_months := 2
  n_scenarios := 1
  n_skus := 1
  D := fun _ _ _ => 0
  SP := fun _ => 5
  UP := fun _ => 1
  W := fun _ => 1
  O := fun _ => 1
  L := fun _ => 1
  MOQ := fun _ => 3
  BI := fun _ => 0
  UB := 100
  LB := fun _ => 0

/-- The all-zero assignment, feasible for `pW`. -/
def aW : MVars where
  X := fun _ _ => 0
  V := fun _ _ _ => 0
  S := fun _ _ _ => 0
  s := fun _ _ _ => 0
  d := fun _ _ _ => 0
  z := fun _ _ => 0

/-- Parameters of the single-product model (model-one-product.py
`create_model`).  Here demand, MOQ and BI are declared over
NonNegativeIntegers, the cost parameters over NonNegativeReals. -/
structure SParams where
  n_months : ℕ
  n_scenarios : ℕ
  D : ℕ → ℕ → ℕ
  CM : ℚ
  W : ℚ
  O : ℚ
  L : ℚ
  MOQ : ℕ
  BI : ℕ
  UB : ℚ
  LB : ℚ

/-- Month index set of the single-product model. -/
abbrev SParams.I (q : SParams) : Finset ℕ := Finset.Icc 1 q.n_months

/-- Scenario index set of the single-product model. -/
abbrev SParams.J (q : SParams) : Finset ℕ := Finset.Icc 1 q.n_scenarios

/-- Decision variables of the single-product model; every variable is
declared over NonNegativeIntegers (z over Binary). -/
structure SVars where
  X : ℕ → ℕ
  V : ℕ → ℕ → ℕ
  S : ℕ → ℕ → ℕ
  s : ℕ → ℕ → ℕ
  d : ℕ → ℕ → ℕ
  z : ℕ → ℕ

/-- Binary domain of `z` in the single-product model. -/
abbrev sDomains (q : SParams) (b : SVars) : Prop :=
  ∀ i ∈ q.I, b.z i ≤ 1

/-- `_const_surplus_deficit` of model-one-product.py:
`V[i,j] + s[i,j] - d[i,j] == D[i,j]`. -/
abbrev sConstSurplusDeficit (q : SParams) (b : SVars) : Prop :=
  ∀ i ∈ q.I, ∀ j ∈ q.J, (b.V i j : ℤ) + (b.s i j : ℤ) - (b.d i j : ℤ) = (q.D i j : ℤ)

/-- `_const_stock1` of model-one-product.py. -/
abbrev sConstStock1 (q : SParams) (b : SVars) : Prop :=
  ∀ j ∈ q.J, b.S 1 j = b.X 1 + q.BI

/-- `_const_stock` of model-one-product.py, skipped when `i <= 1`:
`S[i,j] == X[i] + S[i-1,j] - V[i-1,j]`. -/
abbrev sConstStock (q : SParams) (b : SVars) : Prop :=
  ∀ i ∈ q.I, ∀ j ∈ q.J,
    if i ≤ 1 then True
    else (b.S i j : ℤ) = (b.X i : ℤ) + (b.S (i - 1) j : ℤ) - (b.V (i - 1) j : ℤ)

/-- `_const_stock_bounds` of model-one-product.py: `LB <= S[i,j] <= UB`. -/
abbrev sConstStockBounds (q : SParams) (b : SVars) : Prop :=
  ∀ i ∈ q.I, ∀ j ∈ q.J, q.LB ≤ (b.S i j : ℚ) ∧ (b.S i j : ℚ) ≤ q.UB

/-- `_const_volume_bounds` of model-one-product.py: `V[i,j] <= S[i,j]`. -/
abbrev sConstVolumeBounds (q : SParams) (b : SVars) : Prop :=
  ∀ i ∈ q.I, ∀ j ∈ q.J, b.V i j ≤ b.S i j

/-- `_const_moq1` of model-one-product.py. -/
abbrev sConstMoq1 (q : SParams) (b : SVars) : Prop :=
  ∀ i ∈ q.I, (b.X i : ℚ) ≥ (q.MOQ : ℚ) * (b.z i : ℚ)

/-- `_const_moq2` of model-one-product.py. -/
abbrev sConstMoq2 (q : SParams) (b : SVars) : Prop :=
  ∀ i ∈ q.I, (b.X i : ℚ) ≤ bigM * (b.z i : ℚ)

/-- Feasible solutions of the single-product model: all declared variable
domains and all constraints of model-one-product.py `create_model`. -/
abbrev SFeasible (q : SParams) (b : SVars) : Prop :=
  sDomains q b ∧ sConstSurplusDeficit q b ∧ sConstStock1 q b ∧ sConstStock q b ∧
  sConstStockBounds q b ∧ sConstVolumeBounds q b ∧ sConstMoq1 q b ∧ sConstMoq2 q b

/-- `obj_expression` of model-one-product.py. -/
def sObj (q : SParams) (b : SVars) : ℚ :=
  (Finset.sum q.I fun i => Finset.sum q.J fun j =>
      q.CM * (b.V i j : ℚ) - q.W * (b.s i j : ℚ) - q.O * (b.d i j : ℚ))
    / (q.n_scenarios : ℚ)
  - Finset.sum q.I fun i => q.L * (b.z i : ℚ)

/- Concrete instances used to settle the claims. -/

/-- Multi-product instance with one month, one scenario, one SKU, zero
demand and positive beginning inventory.  Its data is equivalent (in the
sense of the degenerate-case check) to `qC1` below. -/
def pC1 : MParams where
  n_months := 1
  n_scenarios := 1
  n_skus := 1
  D := fun _ _ _ => 0
  SP := fun _ => 500
  UP := fun _ => 0
  W := fun _ => 40
  O := fun _ => 1000
  L := fun _ => 1000
  MOQ := fun _ => 300
  BI := fun _ => 10
  UB := 999999
  LB := fun _ => 0

/-- Optimal solution of the multi-product instance `pC1`: order nothing
and store the beginning inventory (which is all surplus). -/
def aC1 : MVars where
  X := fun _ _ => 0
  V := fun _ _ _ => 0
  S := fun _ _ _ => 10
  s := fun _ _ _ => 10
  d := fun _ _ _ => 0
  z := fun _ _ => 0

/-- Single-product instance with the same data as `pC1`
(`CM = SP - UP = 500`). -/
def qC1 : SParams where
  n_months := 1
  n_scenarios := 1
  D := fun _ _ => 0
  CM := 500
  W := 40
  O := 1000
  L := 1000
  MOQ := 300
  BI := 10
  UB := 999999
  LB := 0

/-- Optimal solution of the single-product instance `qC1`: order nothing;
no surplus variable is forced, so the stored units cost nothing. -/
def bC1 : SVars where
  X := fun _ => 0
  V := fun _ _ => 0
  S := fun _ _ => 10
  s := fun _ _ => 0
  d := fun _ _ => 0
  z := fun _ => 0

/-- Multi-product parameter record with empty month and scenario index
sets (`n_months = 0`, `n_scenarios = 0`). -/
def pZero : MParams where
  n_months := 0
  n_scenarios := 0
  n_skus := 1
  D := fun _ _ _ => 0
  SP := fun _ => 1
  UP := fun _ => 1
  W := fun _ => 1
  O := fun _ => 1
  L := fun _ => 1
  MOQ := fun _ => 1
  BI := fun _ => 0
  UB := 1
  LB := fun _ => 0

/- Embedding of utils.py (array <-> dictionary-of-keys conversion). -/

/-- Numpy arrays are embedded as a shape together with the C-order
(`ravel`) list of cells; a cell holding the numpy missing-value sentinel
NaN is `none`. -/
structure NDArr where
  shape : List ℕ
  data : List (Option ℚ)
deriving DecidableEq

/-- An array stores exactly one cell per coordinate of its shape. -/
abbrev NDArr.wf (a : NDArr) : Prop := a.data.length = a.shape.prod

/-- Keys of the dictionary-of-keys format of utils.py: bare integers
(written for 1-D arrays) or index tuples (N-D arrays). -/
inductive DokKey where
  | int (n : ℤ)
  | tup (l : List ℤ)
deriving DecidableEq

/-- The 1-based index tuples of an array of the given shape, in C order:
`itertools.product(*[range(1, i + 1) for i in X.shape])` (the first axis
varies slowest, matching `ravel`). -/
def multiIdx : List ℕ → List (List ℕ)
  | [] => [[]]
  | n :: rest =>
    ((List.range n).map (· + 1)).flatMap fun i => (multiIdx rest).map fun t => i :: t

/-- `array_to_dok` of utils.py: for `ndim > 1`, zip the 1-based index
tuples with the ravelled cells; otherwise enumerate with bare keys
`idx + 1`. -/
def array_to_dok (a : NDArr) : List (DokKey × Option ℚ) :=
  if 1 < a.shape.length then
    ((multiIdx a.shape).map fun l => DokKey.tup (l.map Int.ofNat)).zip a.data
  else
    ((List.range a.data.length).zip a.data).map fun pr => (DokKey.int ((pr.1 : ℤ) + 1), pr.2)

/-- Key adjustment performed by `dok_to_array`: add the index offset to
every coordinate, turning a bare key into a 1-tuple. -/
def DokKey.adjust (k : DokKey) (off : ℤ) : List ℤ :=
  match k with
  | .int n => [n + off]
  | .tup l => l.map (· + off)

/-- Numpy index normalization along one axis of size `n`: indices in
`[0, n)` are used as is, indices in `[-n, 0)` wrap around, anything else
is an IndexError (`none`). -/
def normIdx (c : ℤ) (n : ℕ) : Option ℕ :=
  if 0 ≤ c ∧ c < (n : ℤ) then some c.toNat
  else if -(n : ℤ) ≤ c ∧ c < 0 then some (c + (n : ℤ)).toNat
  else none

/-- Row-major flat position of a (normalized) multi-index in an array of
the given shape; `none` on arity mismatch or out-of-bounds coordinates. -/
def flatIdx : List ℤ → List ℕ → Option ℕ
  | [], [] => some 0
  | c :: cs, n :: ns =>
    match normIdx c n, flatIdx cs ns with
    | some i, some r => some (i * ns.prod + r)
    | _, _ => none
  | _, _ => none

/-- Componentwise maximum of a nonempty family of equal-length integer
vectors (`np.array(list(dok_adj.keys())).max(axis=0)`). -/
def vmax (base : List ℤ) (rest : List (List ℤ)) : List ℤ :=
  rest.foldl (fun acc l => acc.zipWith max l) base

/-- Cell left at flat position `q` by the fancy-indexing assignment
`res[tuple(zip(*dok_adj.keys()))] = list(dok_adj.values())` of a
NaN-filled array: the value of the last key assigned there, `none`
(NaN) when no key addresses `q` or the assigned value itself is NaN. -/
def cellVal (assigns : List (ℕ × Option ℚ)) (q : ℕ) : Option ℚ :=
  match (assigns.filter fun pr => pr.1 == q).getLast? with
  | some pr => pr.2
  | none => none

/-- `np.array(list(dok_adj.keys())).max(axis=0)`: fails (`none`) on an
empty key list (zero-size reduction), on ragged keys of unequal arity
(`np.array` raises) and on arity-0 keys (the subsequent fill/assignment
raises); otherwise the componentwise maximum. -/
def npMaxAxis0 (keys : List (List ℤ)) : Option (List ℤ) :=
  match keys with
  | [] => none
  | k0 :: rest =>
    if k0.length = 0 then none
    else if rest.all (fun k => k.length == k0.length) then some (vmax k0 rest)
    else none

/-- `np.full(shape, np.nan)` accepts the inferred shape only when every
entry is nonnegative. -/
def npFullShape (shapeZ : List ℤ) : Option (List ℕ) :=
  if shapeZ.all (fun c => decide (0 ≤ c)) then some (shapeZ.map Int.toNat) else none

/-- Assembly of the result array from the adjusted keyed map: infer the
shape as `max(axis=0) - index_offset`, create a NaN-filled array of that
shape (`np.full`) and assign the map's values at the adjusted keys (an
out-of-bounds adjusted key is an IndexError, `none`). -/
def dokAssemble (off : ℤ) (adj : List (List ℤ × Option ℚ)) : Option NDArr :=
  match npMaxAxis0 (adj.map Prod.fst) with
  | none => none
  | some mx =>
    match npFullShape (mx.map fun c => c - off) with
    | none => none
    | some shape =>
      match adj.mapM (fun pr => Option.map (fun q => (q, pr.2)) (flatIdx pr.1 shape)) with
      | some assigns => some ⟨shape, (List.range shape.prod).map (cellVal assigns)⟩
      | none => none

/-- `dok_to_array` of utils.py: adjust every key by the index offset
(-1 by default at the call sites), then assemble the dense array. -/
def dok_to_array (dok : List (DokKey × Option ℚ)) (off : ℤ) : Option NDArr :=
  dokAssemble off (dok.map fun pr => (pr.1.adjust off, pr.2))

/- Embedding of `convert_data` of model.py. -/

/-- The keyed data dictionary returned by `convert_data` of model.py
(one field per key of the literal it returns). -/
structure ModelData where
  n_months : ℕ
  n_scenarios : ℕ
  D : List ((ℕ × ℕ) × ℚ)
  CM : ℚ
  W : ℚ
  O : ℚ
  L : ℚ
  MOQ : ℚ
  BI : ℚ
  UB : ℚ
  LB : ℚ
deriving DecidableEq

/-- `convert_data` of model.py: despite its twelve documented parameters
it returns a hard-coded literal dictionary (the single-product debugging
fixture). -/
def convert_data (n_months n_scenarios : ℕ) (D SP UP W O L : NDArr) (MOQ : ℤ)
    (BI : NDArr) (UB : ℚ) (LB : NDArr) : ModelData where
  n_months := 5
  n_scenarios := 2
  D := [((1, 1), 100), ((2, 1), 120), ((3, 1), 80), ((4, 1), 90), ((5, 1), 100),
        ((1, 2), 80), ((2, 2), 100), ((3, 2), 150), ((4, 2), 120), ((5, 2), 80)]
  CM := 500
  W := 800 * (0.05 : ℚ)
  O := 2 * 500
  L := 1000
  MOQ := 300
  BI := 0
  UB := 999999
  LB := 0

/-- The fixture dictionary hard-coded in `convert_data` (and in
`generate_test_data` of model-one-product.py). -/
def fixtureModelData : ModelData where
  n_months := 5
  n_scenarios := 2
  D := [((1, 1), 100), ((2, 1), 120), ((3, 1), 80), ((4, 1), 90), ((5, 1), 100),
        ((1, 2), 80), ((2, 2), 100), ((3, 2), 150), ((4, 2), 120), ((5, 2), 80)]
  CM := 500
  W := 800 * (0.05 : ℚ)
  O := 2 * 500
  L := 1000
  MOQ := 300
  BI := 0
  UB := 999999
  LB := 0

/-- Concrete 2x2 array used to witness the round-trip property. -/
def arrW : NDArr where
  shape := [2, 2]
  data := [some 1, some 2, some 3, some 4]

/-- The empty 1-D array. -/
def arrEmpty : NDArr where
  shape := [0]
  data := []

/-- Concrete keyed map used to witness the `dok_to_array` description. -/
def dokW : List (DokKey × Option ℚ) :=
  [(DokKey.tup [1, 2], some 5), (DokKey.tup [2, 1], none)]

/- Helper lemmas about the concrete instances. -/

theorem aW_feasible : MFeasible pW aW := by
  simp [MFeasible, mDomains, mConstSurplusDeficit, mConstStock1, mConstStock,
    mConstStockBuffer, mConstStockMax, mConstVolumeBoundsDemand, mConstMoq1,
    mConstMoq2, pW, aW, bigM]

theorem aC1_feasible : MFeasible pC1 aC1 := by
  simp [MFeasible, mDomains, mConstSurplusDeficit, mConstStock1, mConstStock,
    mConstStockBuffer, mConstStockMax, mConstVolumeBoundsDemand, mConstMoq1,
    mConstMoq2, pC1, aC1, bigM]

theorem bC1_feasible : SFeasible qC1 bC1 := by
  norm_num [SFeasible, sDomains, sConstSurplusDeficit, sConstStock1, sConstStock,
    sConstStockBounds, sConstVolumeBounds, sConstMoq1, sConstMoq2, qC1, bC1, bigM]

theorem mObj_aC1 : mObj pC1 aC1 = -400 := by
  norm_num [mObj, pC1, aC1, Finset.Icc_self, Finset.sum_singleton]

theorem sObj_bC1 : sObj qC1 bC1 = 0 := by
  norm_num [sObj, qC1, bC1, Finset.Icc_self, Finset.sum_singleton]

/-- Every feasible solution of the multi-product instance `pC1` has
objective value at most -400: demand is 0, so V = d = 0, the whole stock
X + 10 is surplus, and storage plus shipping costs at least 400. -/
theorem multiUB (a : MVars) (h : MFeasible pC1 a) : mObj pC1 a ≤ -400 := by
  obtain ⟨hdom, hsd, hst1, _hst, _hbuf, _hmax, hvd, _hm1, _hm2⟩ := h
  have h1I : (1 : ℕ) ∈ pC1.I := by decide
  have h1J : (1 : ℕ) ∈ pC1.J := by decide
  have h1K : (1 : ℕ) ∈ pC1.K := by decide
  have hd := hdom.1 1 h1I 1 h1J 1 h1K
  have hsd1 := hsd 1 h1I 1 h1J 1 h1K
  have hst11 := hst1 1 h1J 1 h1K
  have hvd1 := hvd 1 h1I 1 h1J 1 h1K
  have hX : (0 : ℚ) ≤ (a.X 1 1 : ℚ) := Nat.cast_nonneg _
  have hzc : (0 : ℚ) ≤ (a.z 1 1 : ℚ) := Nat.cast_nonneg _
  have hD : pC1.D 1 1 1 = 0 := rfl
  have hBI : pC1.BI 1 = 10 := rfl
  rw [hD] at hvd1
  rw [hBI] at hst11
  have hV0 : a.V 1 1 1 = 0 := by linarith [hd.1, hd.2.2.2]
  have hd0 : a.d 1 1 1 = 0 := by linarith [hd.1, hd.2.2.2]
  have hobj : mObj pC1 a =
      500 * a.V 1 1 1 - 40 * a.s 1 1 1 - 1000 * a.d 1 1 1 - 1000 * (a.z 1 1 : ℚ) := by
    simp [mObj, pC1, Finset.Icc_self, Finset.sum_singleton]
    try ring
  have hs : a.s 1 1 1 = (a.X 1 1 : ℚ) + 10 := by linarith
  rw [hobj, hV0, hd0, hs]
  linarith

/-- Every feasible solution of the single-product instance `qC1` has
objective value at most 0: with zero demand the surplus/deficit equation
forces d = V + s, and every term of the objective is a cost. -/
theorem singleUB (b : SVars) (h : SFeasible qC1 b) : sObj qC1 b ≤ 0 := by
  obtain ⟨hz, hsd, _, _, _, _, _, _⟩ := h
  have h1I : (1 : ℕ) ∈ qC1.I := by decide
  have h1J : (1 : ℕ) ∈ qC1.J := by decide
  have hsd1 := hsd 1 h1I 1 h1J
  have hD : qC1.D 1 1 = 0 := rfl
  rw [hD] at hsd1
  have hnd : b.d 1 1 = b.V 1 1 + b.s 1 1 := by omega
  have hV : (0 : ℚ) ≤ (b.V 1 1 : ℚ) := Nat.cast_nonneg _
  have hsnn : (0 : ℚ) ≤ (b.s 1 1 : ℚ) := Nat.cast_nonneg _
  have hzc : (0 : ℚ) ≤ (b.z 1 : ℚ) := Nat.cast_nonneg _
  have hdq : (b.d 1 1 : ℚ) = (b.V 1 1 : ℚ) + (b.s 1 1 : ℚ) := by
    rw [hnd]; push_cast; ring
  have hobj : sObj qC1 b =
      500 * (b.V 1 1 : ℚ) - 40 * (b.s 1 1 : ℚ) - 1000 * (b.d 1 1 : ℚ)
        - 1000 * (b.z 1 : ℚ) := by
    simp [sObj, qC1, Finset.Icc_self, Finset.sum_singleton]
    try ring
  rw [hobj, hdq]
  linarith

/- List helper lemmas for the utils.py embedding. -/

theorem zip_map_fst {α β γ : Type} (f : α → γ) :
    ∀ (l1 : List α) (l2 : List β),
      (l1.zip l2).map (fun pr => (f pr.1, pr.2)) = (l1.map f).zip l2 := by
  intro l1
  induction l1 with
  | nil => intro l2; simp
  | cons x xs ih =>
    intro l2
    cases l2 with
    | nil => simp
    | cons y ys => simp [ih]

theorem flatMap_length_const {α β : Type} (c : ℕ) :
    ∀ (l : List α) (f : α → List β), (∀ x ∈ l, (f x).length = c) →
      (l.flatMap f).length = l.length * c := by
  intro l
  induction l with
  | nil => intro f _; simp
  | cons x xs ih =>
    intro f hf
    simp only [List.flatMap_cons, List.length_append, List.length_cons]
    rw [ih f fun y hy => hf y (List.mem_cons_of_mem _ hy), hf x (List.mem_cons_self _ _)]
    ring

theorem multiIdx_length : ∀ sh : List ℕ, (multiIdx sh).length = sh.prod := by
  intro sh
  induction sh with
  | nil => simp [multiIdx]
  | cons n ns ih =>
    rw [multiIdx, flatMap_length_const ns.prod _ _ fun x hx => by simp [ih]]
    simp [List.prod_cons]

theorem forall2_le_refl : ∀ a : List ℤ, List.Forall₂ (· ≤ ·) a a
  | [] => List.Forall₂.nil
  | x :: xs => List.Forall₂.cons le_rfl (forall2_le_refl xs)

theorem forall2_le_trans : ∀ {a b c : List ℤ}, List.Forall₂ (· ≤ ·) a b →
    List.Forall₂ (· ≤ ·) b c → List.Forall₂ (· ≤ ·) a c := by
  intro a b c h1
  induction h1 generalizing c with
  | nil => intro h2; cases h2; exact List.Forall₂.nil
  | cons hx h1' ih =>
    intro h2
    cases h2 with
    | cons hy h2' => exact List.Forall₂.cons (le_trans hx hy) (ih h2')

theorem forall2_le_antisymm : ∀ {a b : List ℤ}, List.Forall₂ (· ≤ ·) a b →
    List.Forall₂ (· ≤ ·) b a → a = b := by
  intro a b h1
  induction h1 with
  | nil => intro _; rfl
  | cons hx h1' ih =>
    intro h2
    cases h2 with
    | cons hy h2' => rw [le_antisymm hx hy, ih h2']

theorem zipWith_max_left : ∀ (a b : List ℤ), a.length = b.length →
    List.Forall₂ (· ≤ ·) a (a.zipWith max b)
  | [], [], _ => List.Forall₂.nil
  | [], _ :: _, h => by simp at h
  | _ :: _, [], h => by simp at h
  | x :: xs, y :: ys, h => by
    simp only [List.zipWith_cons_cons]
    exact List.Forall₂.cons (le_max_left x y)
      (zipWith_max_left xs ys (by simp only [List.length_cons] at h; omega))

theorem zipWith_max_right : ∀ (a b : List ℤ), a.length = b.length →
    List.Forall₂ (· ≤ ·) b (a.zipWith max b)
  | [], [], _ => List.Forall₂.nil
  | [], _ :: _, h => by simp at h
  | _ :: _, [], h => by simp at h
  | x :: xs, y :: ys, h => by
    simp only [List.zipWith_cons_cons]
    exact List.Forall₂.cons (le_max_right x y)
      (zipWith_max_right xs ys (by simp only [List.length_cons] at h; omega))

theorem zipWith_max_lub : ∀ {a b m : List ℤ}, List.Forall₂ (· ≤ ·) a m →
    List.Forall₂ (· ≤ ·) b m → List.Forall₂ (· ≤ ·) (a.zipWith max b) m := by
  intro a b m h1
  induction h1 generalizing b with
  | nil =>
    intro h2
    cases h2
    exact List.Forall₂.nil
  | cons hx h1' ih =>
    intro h2
    cases h2 with
    | cons hy h2' =>
      simp only [List.zipWith_cons_cons]
      exact List.Forall₂.cons (max_le hx hy) (ih h2')

theorem vmax_ge_base : ∀ (rest : List (List ℤ)) (base : List ℤ),
    (∀ l ∈ rest, l.length = base.length) →
    List.Forall₂ (· ≤ ·) base (vmax base rest) := by
  intro rest
  induction rest with
  | nil => intro base _; exact forall2_le_refl base
  | cons l ls ih =>
    intro base hl
    have hlen : base.length = l.length := (hl l (List.mem_cons_self _ _)).symm
    have hzip : (base.zipWith max l).length = base.length := by
      simp only [List.length_zipWith]
      omega
    exact forall2_le_trans (zipWith_max_left base l hlen)
      (ih (base.zipWith max l) fun y hy => by
        rw [hzip]; exact hl y (List.mem_cons_of_mem _ hy))

theorem vmax_ge_mem : ∀ (rest : List (List ℤ)) (base : List ℤ),
    (∀ l ∈ rest, l.length = base.length) →
    ∀ y ∈ rest, List.Forall₂ (· ≤ ·) y (vmax base rest) := by
  intro rest
  induction rest with
  | nil => intro base _ y hy; cases hy
  | cons l ls ih =>
    intro base hl y hy
    have hlen : base.length = l.length := (hl l (List.mem_cons_self _ _)).symm
    have hzip : (base.zipWith max l).length = base.length := by
      simp only [List.length_zipWith]
      omega
    have hrest : ∀ x ∈ ls, x.length = (base.zipWith max l).length := fun x hx => by
      rw [hzip]; exact hl x (List.mem_cons_of_mem _ hx)
    rcases List.mem_cons.mp hy with heq | hmem
    · subst heq
      exact forall2_le_trans (zipWith_max_right base y hlen)
        (vmax_ge_base ls (base.zipWith max y) hrest)
    · exact ih (base.zipWith max l) hrest y hmem

theorem vmax_le : ∀ (rest : List (List ℤ)) (base m : List ℤ),
    List.Forall₂ (· ≤ ·) base m → (∀ l ∈ rest, List.Forall₂ (· ≤ ·) l m) →
    List.Forall₂ (· ≤ ·) (vmax base rest) m := by
  intro rest
  induction rest with
  | nil => intro base m h _; exact h
  | cons l ls ih =>
    intro base m hb hl
    exact ih (base.zipWith max l) m
      (zipWith_max_lub hb (hl l (List.mem_cons_self _ _)))
      fun x hx => hl x (List.mem_cons_of_mem _ hx)

theorem vmax_dominant (rest : List (List ℤ)) (base m : List ℤ)
    (hlen : ∀ l ∈ rest, l.length = base.length)
    (hbase : List.Forall₂ (· ≤ ·) base m)
    (hall : ∀ l ∈ rest, List.Forall₂ (· ≤ ·) l m)
    (hm : m ∈ rest) : vmax base rest = m :=
  forall2_le_antisymm (vmax_le rest base m hbase hall) (vmax_ge_mem rest base hlen m hm)

theorem zipWith_max_getD : ∀ (a b : List ℤ) (ax : ℕ), ax < a.length → ax < b.length →
    (a.zipWith max b).getD ax 0 = max (a.getD ax 0) (b.getD ax 0)
  | x :: xs, y :: ys, 0, _, _ => rfl
  | x :: xs, y :: ys, ax + 1, h1, h2 => by
    simpa using zipWith_max_getD xs ys ax
      (by simp only [List.length_cons] at h1; omega)
      (by simp only [List.length_cons] at h2; omega)
  | [], _, ax, h1, _ => by simp at h1
  | _ :: _, [], ax, _, h2 => by simp at h2

theorem vmax_attain : ∀ (rest : List (List ℤ)) (base : List ℤ),
    (∀ l ∈ rest, l.length = base.length) →
    ∀ ax, ax < base.length →
      (vmax base rest).getD ax 0 = base.getD ax 0 ∨
      ∃ y ∈ rest, (vmax base rest).getD ax 0 = y.getD ax 0 := by
  intro rest
  induction rest with
  | nil => intro base _ ax _; exact Or.inl rfl
  | cons l ls ih =>
    intro base hl ax hax
    have hlen : l.length = base.length := hl l (List.mem_cons_self _ _)
    have hzip : (base.zipWith max l).length = base.length := by
      simp only [List.length_zipWith]
      omega
    have hrest : ∀ x ∈ ls, x.length = (base.zipWith max l).length := fun x hx => by
      rw [hzip]; exact hl x (List.mem_cons_of_mem _ hx)
    have hvz : vmax base (l :: ls) = vmax (base.zipWith max l) ls := rfl
    have step := ih (base.zipWith max l) hrest ax (by omega)
    rcases step with h | ⟨y, hy, hval⟩
    · have hmax := zipWith_max_getD base l ax hax (by omega)
      rcases max_cases (base.getD ax 0) (l.getD ax 0) with ⟨he, _⟩ | ⟨he, _⟩
      · exact Or.inl (by rw [hvz, h, hmax, he])
      · exact Or.inr ⟨l, List.mem_cons_self _ _, by rw [hvz, h, hmax, he]⟩
    · exact Or.inr ⟨y, List.mem_cons_of_mem _ hy, by rw [hvz, hval]⟩

theorem mixed_radix_unique {P i1 i2 r1 r2 : ℕ} (h : i1 * P + r1 = i2 * P + r2)
    (h1 : r1 < P) (h2 : r2 < P) : i1 = i2 ∧ r1 = r2 := by
  have hi : i1 = i2 := by
    rcases Nat.lt_trichotomy i1 i2 with hlt | heq | hgt
    · exfalso
      have hstep : (i1 + 1) * P ≤ i2 * P := mul_le_mul_right' (by omega) P
      have hexp : (i1 + 1) * P = i1 * P + P := by ring
      linarith
    · exact heq
    · exfalso
      have hstep : (i2 + 1) * P ≤ i1 * P := mul_le_mul_right' (by omega) P
      have hexp : (i2 + 1) * P = i2 * P + P := by ring
      linarith
  subst hi
  exact ⟨rfl, Nat.add_left_cancel h⟩

theorem normIdx_of_nonneg {c : ℤ} {n : ℕ} (h0 : 0 ≤ c) (hn : c < (n : ℤ)) :
    normIdx c n = some c.toNat := by
  rw [normIdx, if_pos ⟨h0, hn⟩]

theorem flatIdx_cons {c : ℤ} {cs : List ℤ} {n : ℕ} {ns : List ℕ} {i : ℕ}
    (h : normIdx c n = some i) :
    flatIdx (c :: cs) (n :: ns) =
      Option.map (fun r => i * ns.prod + r) (flatIdx cs ns) := by
  rw [flatIdx, h]
  cases flatIdx cs ns <;> rfl

theorem flatIdx_bounds : ∀ {c : List ℤ} {sh : List ℕ},
    List.Forall₂ (fun (x : ℤ) (n : ℕ) => 0 ≤ x ∧ x < (n : ℤ)) c sh →
    ∃ q, flatIdx c sh = some q ∧ q < sh.prod := by
  intro c sh h
  induction h with
  | nil => exact ⟨0, rfl, by simp [flatIdx]⟩
  | cons hx hrest ih =>
    rename_i x n cs ns
    obtain ⟨r, hr, hrlt⟩ := ih
    refine ⟨x.toNat * ns.prod + r, ?_, ?_⟩
    · rw [flatIdx_cons (normIdx_of_nonneg hx.1 hx.2), hr]
      rfl
    · have hxn : x.toNat < n := by omega
      have hexp : (x.toNat + 1) * ns.prod = x.toNat * ns.prod + ns.prod := by ring
      have hstep : (x.toNat + 1) * ns.prod ≤ n * ns.prod := mul_le_mul_right' (by omega) _
      simp only [List.prod_cons]
      linarith

theorem flatIdx_inj : ∀ (sh : List ℕ) (c1 c2 : List ℤ) (q : ℕ),
    List.Forall₂ (fun (x : ℤ) (n : ℕ) => 0 ≤ x ∧ x < (n : ℤ)) c1 sh →
    List.Forall₂ (fun (x : ℤ) (n : ℕ) => 0 ≤ x ∧ x < (n : ℤ)) c2 sh →
    flatIdx c1 sh = some q → flatIdx c2 sh = some q → c1 = c2 := by
  intro sh
  induction sh with
  | nil =>
    intro c1 c2 q h1 h2 _ _
    cases h1
    cases h2
    rfl
  | cons n ns ih =>
    intro c1 c2 q h1 h2 hf1 hf2
    match c1, h1 with
    | x1 :: cs1, List.Forall₂.cons hx1 hr1 =>
      match c2, h2 with
      | x2 :: cs2, List.Forall₂.cons hx2 hr2 =>
        obtain ⟨r1, hfr1, hlt1⟩ := flatIdx_bounds hr1
        obtain ⟨r2, hfr2, hlt2⟩ := flatIdx_bounds hr2
        rw [flatIdx_cons (normIdx_of_nonneg hx1.1 hx1.2), hfr1] at hf1
        rw [flatIdx_cons (normIdx_of_nonneg hx2.1 hx2.2), hfr2] at hf2
        have e1 : x1.toNat * ns.prod + r1 = q := by
          simpa using hf1
        have e2 : x2.toNat * ns.prod + r2 = q := by
          simpa using hf2
        obtain ⟨hi, hrr⟩ := mixed_radix_unique (e1.trans e2.symm) hlt1 hlt2
        have hx : x1 = x2 := by omega
        rw [hx, ih cs1 cs2 r1 hr1 hr2 hfr1 (by rw [hfr2, hrr])]

theorem filter_zip_range' {β : Type} [Inhabited β] (q : ℕ) :
    ∀ (n s : ℕ) (ds : List β), ds.length = n →
      (((List.range' s n).zip ds).filter fun pr => pr.1 == q) =
        if s ≤ q ∧ q < s + n then [(q, ds.getD (q - s) default)] else [] := by
  intro n
  induction n with
  | zero =>
    intro s ds h
    have hds : ds = [] := List.eq_nil_of_length_eq_zero h
    subst hds
    rw [if_neg (by omega)]
    simp
  | succ m ih =>
    intro s ds h
    match ds with
    | d :: ds' =>
      rw [List.range'_succ]
      simp only [List.zip_cons_cons, List.filter_cons]
      by_cases hq : s = q
      · subst hq
        simp only [beq_self_eq_true, if_true]
        rw [ih (s + 1) ds' (by simpa using h)]
        rw [if_neg (by omega), if_pos (by omega)]
        simp
      · have hbeq : ((s, d).1 == q) = false := by
          simp only [beq_eq_false_iff_ne, ne_eq]
          exact hq
        rw [hbeq]
        simp only [Bool.false_eq_true, if_false]
        rw [ih (s + 1) ds' (by simpa using h)]
        by_cases hc : s + 1 ≤ q ∧ q < s + 1 + m
        · rw [if_pos hc, if_pos (by omega)]
          have hqs : q - s = (q - (s + 1)) + 1 := by omega
          rw [hqs, List.getD_cons_succ]
        · rw [if_neg hc, if_neg (by omega)]

theorem cellVal_zip_range : ∀ ds : List (Option ℚ),
    (List.range ds.length).map (cellVal ((List.range ds.length).zip ds)) = ds := by
  intro ds
  apply List.ext_getElem
  · simp
  · intro i h1 h2
    simp only [List.getElem_map, List.getElem_range]
    rw [cellVal, List.range_eq_range', filter_zip_range' i ds.length 0 ds rfl,
      if_pos (by constructor <;> omega)]
    simp only [List.getLast?_singleton]
    rw [Nat.sub_zero]
    exact List.getD_eq_getElem ds default h2

theorem mapM_zip_flat {β : Type} (sh : List ℕ) :
    ∀ (ks : List (List ℤ)) (qs : List ℕ) (ds : List β),
      ks.map (fun k => flatIdx k sh) = qs.map some → ks.length = ds.length →
      ((ks.zip ds).mapM fun pr => Option.map (fun q => (q, pr.2)) (flatIdx pr.1 sh)) =
        some (qs.zip ds) := by
  intro ks
  induction ks with
  | nil =>
    intro qs ds h hl
    match qs, h with
    | [], _ => rfl
  | cons k ks' ih =>
    intro qs ds h hl
    match qs, h with
    | q :: qs', h =>
      match ds, hl with
      | d :: ds', hl =>
        simp only [List.map_cons, List.cons.injEq] at h
        simp only [List.zip_cons_cons, List.mapM_cons, h.1, Option.map_some']
        rw [ih qs' ds' h.2 (by simpa using hl)]
        rfl

theorem flatMap_congr {α β : Type} {l : List α} {f g : α → List β}
    (h : ∀ x ∈ l, f x = g x) : l.flatMap f = l.flatMap g := by
  induction l with
  | nil => rfl
  | cons x xs ih =>
    simp only [List.flatMap_cons]
    rw [h x (List.mem_cons_self _ _), ih fun y hy => h y (List.mem_cons_of_mem _ hy)]

theorem multiIdx_mem : ∀ (sh : List ℕ) (l : List ℕ), l ∈ multiIdx sh →
    List.Forall₂ (fun c n => 1 ≤ c ∧ c ≤ n) l sh := by
  intro sh
  induction sh with
  | nil =>
    intro l hl
    simp only [multiIdx, List.mem_singleton] at hl
    subst hl
    exact List.Forall₂.nil
  | cons n ns ih =>
    intro l hl
    rw [multiIdx] at hl
    simp only [List.mem_flatMap, List.mem_map, List.mem_range] at hl
    obtain ⟨i, ⟨i0, hi0, rfl⟩, t, ht, rfl⟩ := hl
    exact List.Forall₂.cons ⟨by omega, by omega⟩ (ih t ht)

theorem multiIdx_self_mem : ∀ sh : List ℕ, (∀ n ∈ sh, 1 ≤ n) → sh ∈ multiIdx sh := by
  intro sh
  induction sh with
  | nil => intro _; simp [multiIdx]
  | cons n ns ih =>
    intro h
    have hn : 1 ≤ n := h n (List.mem_cons_self _ _)
    rw [multiIdx]
    simp only [List.mem_flatMap, List.mem_map, List.mem_range]
    exact ⟨n, ⟨n - 1, by omega, by omega⟩,
      ns, ih fun x hx => h x (List.mem_cons_of_mem _ hx), rfl⟩

theorem range_mul_flatMap : ∀ (n P : ℕ),
    List.range (n * P) =
      (List.range n).flatMap fun i => (List.range P).map fun r => i * P + r := by
  intro n
  induction n with
  | zero => intro P; simp
  | succ m ih =>
    intro P
    have h1 : (m + 1) * P = m * P + P := by ring
    rw [h1, List.range_add, List.range_succ, List.flatMap_append, ih]
    simp [List.flatMap_cons]

theorem multiIdx_flat : ∀ sh : List ℕ,
    (multiIdx sh).map (fun l => flatIdx (l.map fun c : ℕ => (c : ℤ) - 1) sh) =
      (List.range sh.prod).map some := by
  intro sh
  induction sh with
  | nil => rfl
  | cons n ns ih =>
    rw [multiIdx, List.map_flatMap, List.prod_cons, range_mul_flatMap,
      List.map_flatMap, List.flatMap_map]
    apply flatMap_congr
    intro i0 hi0
    simp only [List.mem_range] at hi0
    have hn : normIdx (i0 : ℤ) n = some i0 := by
      rw [normIdx_of_nonneg (Int.natCast_nonneg i0) (by exact_mod_cast hi0)]
      simp
    have step1 : ((multiIdx ns).map ((i0 + 1) :: ·)).map
          (fun l => flatIdx (l.map fun c : ℕ => (c : ℤ) - 1) (n :: ns))
        = (multiIdx ns).map fun t =>
            Option.map (fun r => i0 * ns.prod + r)
              (flatIdx (t.map fun c : ℕ => (c : ℤ) - 1) ns) := by
      rw [List.map_map]
      apply List.map_congr_left
      intro t ht
      have hc : ((i0 + 1 : ℕ) : ℤ) - 1 = (i0 : ℤ) := by push_cast; ring
      show flatIdx (((i0 + 1) :: t).map fun c : ℕ => (c : ℤ) - 1) (n :: ns) = _
      rw [List.map_cons, hc]
      exact flatIdx_cons hn
    have step2 : ((multiIdx ns).map fun t =>
            flatIdx (t.map fun c : ℕ => (c : ℤ) - 1) ns).map
          (Option.map fun r => i0 * ns.prod + r)
        = (multiIdx ns).map fun t =>
            Option.map (fun r => i0 * ns.prod + r)
              (flatIdx (t.map fun c : ℕ => (c : ℤ) - 1) ns) := by
      rw [List.map_map]
      rfl
    rw [step1, ← step2, ih, List.map_map, List.map_map]
    rfl

theorem flatMap_singleton_eq_map {α β : Type} (f : α → β) :
    ∀ l : List α, (l.flatMap fun x => [f x]) = l.map f := by
  intro l
  induction l with
  | nil => rfl
  | cons x xs ih => simp [List.flatMap_cons, ih]

theorem multiIdx_single (n : ℕ) : multiIdx [n] = (List.range n).map fun i => [i + 1] := by
  rw [multiIdx, List.flatMap_map]
  show (List.range n).flatMap (fun i => [[i + 1]]) = _
  exact flatMap_singleton_eq_map (fun i => [i + 1]) (List.range n)

theorem npMaxAxis0_eq (keys : List (List ℤ)) (m : List ℤ) (hne : keys ≠ [])
    (hlen : ∀ l ∈ keys, l.length = m.length) (hm0 : m.length ≠ 0)
    (hall : ∀ l ∈ keys, List.Forall₂ (· ≤ ·) l m) (hmem : m ∈ keys) :
    npMaxAxis0 keys = some m := by
  match keys, hne with
  | k0 :: rest, _ =>
    rw [npMaxAxis0]
    rw [if_neg (by rw [hlen k0 (List.mem_cons_self _ _)]; exact hm0)]
    rw [if_pos]
    · congr 1
      apply forall2_le_antisymm
      · exact vmax_le rest k0 m (hall k0 (List.mem_cons_self _ _))
          fun l hl => hall l (List.mem_cons_of_mem _ hl)
      · rcases List.mem_cons.mp hmem with heq | hmem'
        · subst heq
          exact vmax_ge_base rest m fun l hl => hlen l (List.mem_cons_of_mem _ hl)
        · exact vmax_ge_mem rest k0
            (fun l hl => by
              rw [hlen l (List.mem_cons_of_mem _ hl), hlen k0 (List.mem_cons_self _ _)])
            m hmem'
    · simp only [List.all_eq_true, beq_iff_eq]
      intro k hk
      rw [hlen k (List.mem_cons_of_mem _ hk), hlen k0 (List.mem_cons_self _ _)]

theorem npFullShape_natCast (sh : List ℕ) :
    npFullShape (sh.map fun n : ℕ => (n : ℤ)) = some sh := by
  rw [npFullShape, if_pos]
  · congr 1
    rw [List.map_map]
    have hid : (Int.toNat ∘ fun n : ℕ => (n : ℤ)) = id := by
      funext n
      simp
    rw [hid, List.map_id]
  · simp only [List.all_eq_true, List.mem_map]
    intro x hx
    obtain ⟨n, hn, rfl⟩ := hx
    simp

theorem dokAssemble_roundtrip (sh : List ℕ) (data : List (Option ℚ))
    (hlen : data.length = sh.prod) (hsh : sh ≠ []) (hpos : ∀ n ∈ sh, 1 ≤ n) :
    dokAssemble (-1)
        (((multiIdx sh).map fun l => l.map fun c : ℕ => (c : ℤ) - 1).zip data)
      = some ⟨sh, data⟩ := by
  set A := (multiIdx sh).map fun l => l.map fun c : ℕ => (c : ℤ) - 1 with hA
  have hAlen : A.length = sh.prod := by rw [hA, List.length_map, multiIdx_length]
  have hfst : (A.zip data).map Prod.fst = A :=
    List.map_fst_zip A data (by omega)
  have hprodpos : 0 < sh.prod := List.prod_pos fun n hn => hpos n hn
  have hmlen : (sh.map fun n : ℕ => (n : ℤ) - 1).length = sh.length :=
    List.length_map _ _
  have hkeylen : ∀ l ∈ A, l.length = sh.length := by
    intro l hl
    rw [hA] at hl
    obtain ⟨t, ht, rfl⟩ := List.mem_map.mp hl
    rw [List.length_map]
    exact (multiIdx_mem sh t ht).length_eq
  have hkeyle : ∀ l ∈ A, List.Forall₂ (· ≤ ·) l (sh.map fun n : ℕ => (n : ℤ) - 1) := by
    intro l hl
    rw [hA] at hl
    obtain ⟨t, ht, rfl⟩ := List.mem_map.mp hl
    rw [List.forall₂_map_left_iff, List.forall₂_map_right_iff]
    exact (multiIdx_mem sh t ht).imp fun a b hab => by omega
  have hmmem : (sh.map fun n : ℕ => (n : ℤ) - 1) ∈ A := by
    rw [hA]
    exact List.mem_map.mpr ⟨sh, multiIdx_self_mem sh hpos, rfl⟩
  have hmax : npMaxAxis0 ((A.zip data).map Prod.fst)
      = some (sh.map fun n : ℕ => (n : ℤ) - 1) := by
    rw [hfst]
    apply npMaxAxis0_eq
    · intro hnil
      rw [hnil] at hAlen
      simp only [List.length_nil] at hAlen
      omega
    · intro l hl
      rw [hkeylen l hl, hmlen]
    · rw [hmlen]
      intro h0
      exact hsh (List.eq_nil_of_length_eq_zero h0)
    · exact hkeyle
    · exact hmmem
  have hshapeZ : ((sh.map fun n : ℕ => (n : ℤ) - 1).map fun c => c - (-1))
      = sh.map fun n : ℕ => (n : ℤ) := by
    rw [List.map_map]
    apply List.map_congr_left
    intro n hn
    show ((n : ℤ) - 1) - (-1) = (n : ℤ)
    ring
  have hfull : npFullShape ((sh.map fun n : ℕ => (n : ℤ) - 1).map fun c => c - (-1))
      = some sh := by
    rw [hshapeZ]
    exact npFullShape_natCast sh
  have hflat : A.map (fun k => flatIdx k sh) = (List.range sh.prod).map some := by
    rw [hA, List.map_map]
    exact multiIdx_flat sh
  have hmapM : ((A.zip data).mapM fun pr =>
        Option.map (fun q => (q, pr.2)) (flatIdx pr.1 sh))
      = some ((List.range sh.prod).zip data) :=
    mapM_zip_flat sh A (List.range sh.prod) data hflat (by omega)
  have hdata : (List.range sh.prod).map (cellVal ((List.range sh.prod).zip data))
      = data := by
    rw [← hlen]
    exact cellVal_zip_range data
  simp only [dokAssemble, hmax, hfull, hmapM, hdata]

theorem vmax_length : ∀ (rest : List (List ℤ)) (base : List ℤ),
    (∀ l ∈ rest, l.length = base.length) → (vmax base rest).length = base.length := by
  intro rest
  induction rest with
  | nil => intro base _; rfl
  | cons l ls ih =>
    intro base hl
    have hz : (base.zipWith max l).length = base.length := by
      simp only [List.length_zipWith, hl l (List.mem_cons_self _ _)]
      omega
    have hrec := ih (base.zipWith max l) fun x hx => by
      rw [hz]; exact hl x (List.mem_cons_of_mem _ hx)
    rw [show vmax base (l :: ls) = vmax (base.zipWith max l) ls from rfl, hrec, hz]

theorem npMaxAxis0_spec (keys : List (List ℤ)) (ar : ℕ) (hne : keys ≠ [])
    (har : 0 < ar) (hlen : ∀ l ∈ keys, l.length = ar) :
    ∃ mx, npMaxAxis0 keys = some mx ∧ mx.length = ar ∧
      (∀ l ∈ keys, List.Forall₂ (· ≤ ·) l mx) ∧
      (∀ ax, ax < ar → ∃ l ∈ keys, l.getD ax 0 = mx.getD ax 0) := by
  match keys, hne with
  | k0 :: rest, _ =>
    have hk0 : k0.length = ar := hlen k0 (List.mem_cons_self _ _)
    have hrlen : ∀ l ∈ rest, l.length = k0.length := fun l hl => by
      rw [hlen l (List.mem_cons_of_mem _ hl), hk0]
    refine ⟨vmax k0 rest, ?_, ?_, ?_, ?_⟩
    · rw [npMaxAxis0, if_neg (by omega), if_pos]
      simp only [List.all_eq_true, beq_iff_eq]
      exact hrlen
    · rw [vmax_length rest k0 hrlen, hk0]
    · intro l hl
      rcases List.mem_cons.mp hl with heq | hmem
      · subst heq
        exact vmax_ge_base rest l hrlen
      · exact vmax_ge_mem rest k0 hrlen l hmem
    · intro ax hax
      rcases vmax_attain rest k0 hrlen ax (by omega) with h | ⟨y, hy, hval⟩
      · exact ⟨k0, List.mem_cons_self _ _, h.symm⟩
      · exact ⟨y, List.mem_cons_of_mem _ hy, hval.symm⟩

theorem forall2_and_left {R : ℤ → ℤ → Prop} {p : ℤ → Prop} :
    ∀ {l m : List ℤ}, List.Forall₂ R l m → (∀ c ∈ l, p c) →
      List.Forall₂ (fun c x => p c ∧ R c x) l m := by
  intro l m h
  induction h with
  | nil => intro _; exact List.Forall₂.nil
  | cons hx h' ih =>
    intro hp
    exact List.Forall₂.cons ⟨hp _ (List.mem_cons_self _ _), hx⟩
      (ih fun c hc => hp c (List.mem_cons_of_mem _ hc))

theorem mapM_option_attach {α β : Type} (f : α → Option β) :
    ∀ l : List α, (∀ x ∈ l, (f x).isSome) →
      ∃ l2, l.mapM f = some l2 := by
  intro l
  induction l with
  | nil => intro _; exact ⟨[], rfl⟩
  | cons x xs ih =>
    intro h
    obtain ⟨y, hy⟩ := Option.isSome_iff_exists.mp (h x (List.mem_cons_self _ _))
    obtain ⟨l2, hl2⟩ := ih fun z hz => h z (List.mem_cons_of_mem _ hz)
    refine ⟨y :: l2, ?_⟩
    rw [List.mapM_cons, hy, hl2]
    rfl

theorem filter_assigns {shape : List ℕ} :
    ∀ (adj : List (List ℤ × Option ℚ)) (assigns : List (ℕ × Option ℚ)),
      ((adj.mapM fun pr => Option.map (fun q => (q, pr.2)) (flatIdx pr.1 shape))
        = some assigns) →
      ∀ q : ℕ, (assigns.filter fun x => x.1 == q)
        = (adj.filter fun pr => flatIdx pr.1 shape == some q).map
            fun pr => (q, pr.2) := by
  intro adj
  induction adj with
  | nil =>
    intro assigns h q
    have hnil : ([] : List (ℕ × Option ℚ)) = assigns := Option.some.inj h
    subst hnil
    rfl
  | cons pr adj' ih =>
    intro assigns h q
    rw [List.mapM_cons] at h
    match hf : flatIdx pr.1 shape with
    | none =>
      rw [hf] at h
      simp at h
    | some qpr =>
      rw [hf] at h
      match hrest : adj'.mapM fun pr =>
          Option.map (fun q => (q, pr.2)) (flatIdx pr.1 shape) with
      | none =>
        rw [hrest] at h
        simp at h
      | some ys =>
        rw [hrest] at h
        simp only [Option.map_some', Option.some_bind, Option.bind_some] at h
        have hassigns : assigns = (qpr, pr.2) :: ys := by
          simpa using h.symm
        subst hassigns
        rw [List.filter_cons, List.filter_cons]
        by_cases hq : qpr = q
        · subst hq
          have hc1 : (((qpr, pr.2) : ℕ × Option ℚ).1 == qpr) = true := by simp
          have hc2 : (flatIdx pr.1 shape == some qpr) = true := by simp [hf]
          rw [hc1, hc2]
          simp only [if_true, List.map_cons]
          rw [ih ys hrest qpr]
        · have hc1 : (((qpr, pr.2) : ℕ × Option ℚ).1 == q) = false := by
            simp [hq]
          have hc2 : (flatIdx pr.1 shape == some q) = false := by
            simp [hf, hq]
          rw [hc1, hc2]
          simp only [Bool.false_eq_true, if_false]
          rw [ih ys hrest q]

theorem filter_unique {α : Type} (p : α → Bool) :
    ∀ (l : List α), l.Nodup → ∀ x ∈ l, p x = true →
      (∀ y ∈ l, p y = true → y = x) → l.filter p = [x] := by
  intro l
  induction l with
  | nil => intro _ x hx; cases hx
  | cons a as ih =>
    intro hnd x hx hpx huniq
    have hnd' : as.Nodup := (List.nodup_cons.mp hnd).2
    have hna : a ∉ as := (List.nodup_cons.mp hnd).1
    rcases List.mem_cons.mp hx with heq | hmem
    · subst heq
      rw [List.filter_cons, if_pos hpx]
      have hnil : as.filter p = [] := by
        rw [List.filter_eq_nil_iff]
        intro y hy
        intro hpy
        have := huniq y (List.mem_cons_of_mem _ hy) hpy
        subst this
        exact hna hy
      rw [hnil]
    · have hpa : p a = false := by
        by_contra hcon
        have hpa' : p a = true := by
          cases hval : p a
          · exact absurd hval hcon
          · rfl
        have := huniq a (List.mem_cons_self _ _) hpa'
        subst this
        exact hna hmem
      rw [List.filter_cons, hpa]
      simp only [Bool.false_eq_true, if_false]
      exact ih hnd' x hmem hpx fun y hy hpy =>
        huniq y (List.mem_cons_of_mem _ hy) hpy

theorem getD_map' {α β : Type} (f : α → β) (l : List α) (ax : ℕ) (d : α) (d2 : β)
    (h : ax < l.length) : (l.map f).getD ax d2 = f (l.getD ax d) := by
  rw [List.getD_eq_getElem (l.map f) d2 (by simpa using h), List.getElem_map,
    List.getD_eq_getElem l d h]

theorem getD_map_range (f : ℕ → Option ℚ) (n q : ℕ) (h : q < n) :
    ((List.range n).map f).getD q none = f q := by
  rw [getD_map' f (List.range n) q 0 none (by simpa using h)]
  congr 1
  rw [List.getD_eq_getElem (List.range n) 0 (by simpa using h), List.getElem_range]

/- Claim theorems. -/

/-- Claim C1, counterexample: on the equivalent data `pC1` / `qC1`
(one SKU, SP - UP = CM and all other parameters matching), the optimal
objective value of the multi-product formulation is -400 while the
optimal objective value of the single-product formulation is 0, so the
two optimal values differ. -/
theorem C1_optimal_values_differ :
    IsGreatest {v : ℚ | ∃ a : MVars, MFeasible pC1 a ∧ mObj pC1 a = v} (-400) ∧
    IsGreatest {v : ℚ | ∃ b : SVars, SFeasible qC1 b ∧ sObj qC1 b = v} 0 ∧
    pC1.n_skus = 1 ∧ pC1.SP 1 - pC1.UP 1 = qC1.CM ∧
    pC1.D 1 1 1 = (qC1.D 1 1 : ℚ) ∧ pC1.W 1 = qC1.W ∧ pC1.O 1 = qC1.O ∧
    pC1.L 1 = qC1.L ∧ pC1.MOQ 1 = (qC1.MOQ : ℚ) ∧ pC1.BI 1 = (qC1.BI : ℚ) ∧
    pC1.UB = qC1.UB ∧ pC1.LB 1 = qC1.LB ∧ (-400 : ℚ) ≠ 0 := by
  refine ⟨⟨⟨aC1, aC1_feasible, mObj_aC1⟩, ?_⟩, ⟨⟨bC1, bC1_feasible, sObj_bC1⟩, ?_⟩,
    rfl, by norm_num [pC1, qC1], by norm_num [pC1, qC1], by norm_num [pC1, qC1],
    by norm_num [pC1, qC1], by norm_num [pC1, qC1], by norm_num [pC1, qC1],
    by norm_num [pC1, qC1], by norm_num [pC1, qC1], by norm_num [pC1, qC1],
    by norm_num⟩
  · rintro v ⟨a, hf, rfl⟩
    exact multiUB a hf
  · rintro v ⟨b, hf, rfl⟩
    exact singleUB b hf

/-- Claim C1, amended: the multi-product and single-product formulations
are not equivalent in optimal objective value, but the spec's claim that
the two stock-recursion forms agree does hold inside the multi-product
model: in every feasible solution, for i in {2..n_months}, the stock
recursion carrying the prior surplus equals the sales-adjusted-stock form
S[i,j,k] = X[i,k] + (S[i-1,j,k] - V[i-1,j,k]), because
s[i-1,j,k] = S[i-1,j,k] - V[i-1,j,k]. -/
theorem C1_stock_recursion_forms_agree (p : MParams) (a : MVars) (h : MFeasible p a)
    (i j k : ℕ) (hi : i ∈ Finset.Icc 2 p.n_months) (hj : j ∈ p.J) (hk : k ∈ p.K) :
    a.S i j k = (a.X i k : ℚ) + (a.S (i - 1) j k - a.V (i - 1) j k) := by
  obtain ⟨_, hsd, _, hst, _, _, _, _, _⟩ := h
  have hi2 := Finset.mem_Icc.mp hi
  have hrec := hst i (Finset.mem_Icc.mpr ⟨by omega, hi2.2⟩) j hj k hk
  rw [if_neg (by omega)] at hrec
  have hprev := hsd (i - 1) (Finset.mem_Icc.mpr ⟨by omega, by omega⟩) j hj k hk
  linarith

/-- Witness for the amended C1 theorem at the concrete feasible instance
`pW` / `aW`. -/
theorem C1_stock_recursion_forms_agree_witness :
    aW.S 2 1 1 = (aW.X 2 1 : ℚ) + (aW.S 1 1 1 - aW.V 1 1 1) :=
  C1_stock_recursion_forms_agree pW aW aW_feasible 2 1 1 (by decide) (by decide) (by decide)

/-- Claim C2, counterexample: the single-product model does not enforce
the stock-split identity S = V + s.  The solution `bC1` is feasible for
`qC1` but has S[1,1] = 10 while V[1,1] + s[1,1] = 0. -/
theorem C2_stock_split_fails :
    SFeasible qC1 bC1 ∧ bC1.S 1 1 ≠ bC1.V 1 1 + bC1.s 1 1 :=
  ⟨bC1_feasible, by decide⟩

/-- Claim C2, amended: in every feasible solution of the single-product
model the constraints actually declared at the cited lines hold:
V[i,j] + s[i,j] - d[i,j] = D[i,j] and V[i,j] <= S[i,j]; the multi-product
stock-split identity S = V + s is not among them. -/
theorem C2_surplus_deficit_and_volume_bound (q : SParams) (b : SVars) (h : SFeasible q b)
    (i j : ℕ) (hi : i ∈ q.I) (hj : j ∈ q.J) :
    ((b.V i j : ℤ) + (b.s i j : ℤ) - (b.d i j : ℤ) = (q.D i j : ℤ)) ∧ b.V i j ≤ b.S i j := by
  obtain ⟨_, hsd, _, _, _, hvb, _, _⟩ := h
  exact ⟨hsd i hi j hj, hvb i hi j hj⟩

/-- Witness for the amended C2 theorem at the concrete feasible instance
`qC1` / `bC1`. -/
theorem C2_surplus_deficit_and_volume_bound_witness :
    ((bC1.V 1 1 : ℤ) + (bC1.s 1 1 : ℤ) - (bC1.d 1 1 : ℤ) = (qC1.D 1 1 : ℤ)) ∧
    bC1.V 1 1 ≤ bC1.S 1 1 :=
  C2_surplus_deficit_and_volume_bound qC1 bC1 bC1_feasible 1 1 (by decide) (by decide)

/-- Claim C3: in every feasible solution of the multi-product model the
stock recursion holds with the stated boundary handling: first-period
stock is X[1,k] + BI[k], for i in {2..n_months} stock is
X[i,k] + s[i-1,j,k], and the `_const_stock` family (whose rule skips
indices with i <= 1) is generated exactly on the window {2..n_months}. -/
theorem C3_stock_recursion (p : MParams) (a : MVars) (h : MFeasible p a) :
    (∀ j ∈ p.J, ∀ k ∈ p.K, a.S 1 j k = (a.X 1 k : ℚ) + p.BI k) ∧
    (∀ i ∈ Finset.Icc 2 p.n_months, ∀ j ∈ p.J, ∀ k ∈ p.K,
      a.S i j k = (a.X i k : ℚ) + a.s (i - 1) j k) ∧
    (mConstStock p a ↔
      ∀ i ∈ Finset.Icc 2 p.n_months, ∀ j ∈ p.J, ∀ k ∈ p.K,
        a.S i j k = (a.X i k : ℚ) + a.s (i - 1) j k) := by
  obtain ⟨_, _, hst1, hst, _, _, _, _, _⟩ := h
  have hiff : mConstStock p a ↔
      ∀ i ∈ Finset.Icc 2 p.n_months, ∀ j ∈ p.J, ∀ k ∈ p.K,
        a.S i j k = (a.X i k : ℚ) + a.s (i - 1) j k := by
    constructor
    · intro hc i hi j hj k hk
      have hi2 := Finset.mem_Icc.mp hi
      have hcc := hc i (Finset.mem_Icc.mpr ⟨by omega, hi2.2⟩) j hj k hk
      rwa [if_neg (by omega)] at hcc
    · intro hw i hi j hj k hk
      by_cases h1 : i ≤ 1
      · simp [h1]
      · rw [if_neg h1]
        exact hw i (Finset.mem_Icc.mpr ⟨by omega, (Finset.mem_Icc.mp hi).2⟩) j hj k hk
  exact ⟨hst1, hiff.mp hst, hiff⟩

/-- Witness for C3 at the concrete feasible instance `pW` / `aW`. -/
theorem C3_stock_recursion_witness : aW.S 1 1 1 = (aW.X 1 1 : ℚ) + pW.BI 1 :=
  (C3_stock_recursion pW aW aW_feasible).1 1 (by decide) 1 (by decide)

/-- Claim C4: the multi-product objective equals, for every assignment,
(1 / n_scenarios) times the triple sum of per-scenario margins minus the
total shipping cost, and the objective sense is maximize. -/
theorem C4_objective_formula (p : MParams) (a : MVars) :
    mObj p a =
      (1 / (p.n_scenarios : ℚ)) *
        (Finset.sum p.I fun i => Finset.sum p.J fun j => Finset.sum p.K fun k =>
          (p.SP k - p.UP k) * a.V i j k - p.W k * a.s i j k - p.O k * a.d i j k)
      - (Finset.sum p.I fun i => Finset.sum p.K fun k => p.L k * (a.z i k : ℚ)) ∧
    mObjSense = ObjSense.maximize := by
  refine ⟨?_, rfl⟩
  rw [mObj]
  ring

/-- Claim C5: in every feasible solution of the multi-product model,
MOQ[k] * z[i,k] <= X[i,k] <= 100000 * z[i,k]; consequently a positive
order forces z = 1 and X >= MOQ, and a zero order leaves z in {0,1}. -/
theorem C5_moq_linkage (p : MParams) (a : MVars) (h : MFeasible p a)
    (i k : ℕ) (hi : i ∈ p.I) (hk : k ∈ p.K) :
    (p.MOQ k * (a.z i k : ℚ) ≤ (a.X i k : ℚ) ∧ (a.X i k : ℚ) ≤ 100000 * (a.z i k : ℚ)) ∧
    (0 < a.X i k → a.z i k = 1 ∧ p.MOQ k ≤ (a.X i k : ℚ)) ∧
    (a.X i k = 0 → a.z i k = 0 ∨ a.z i k = 1) := by
  obtain ⟨hdom, _, _, _, _, _, _, hm1, hm2⟩ := h
  have h1 := hm1 i hi k hk
  have h2 := hm2 i hi k hk
  have hb : bigM = 100000 := rfl
  rw [hb] at h2
  have hzb := hdom.2 i hi k hk
  refine ⟨⟨h1, h2⟩, ?_, fun _ => by omega⟩
  intro hx
  have hz01 : a.z i k = 0 ∨ a.z i k = 1 := by omega
  rcases hz01 with h0 | h1z
  · exfalso
    rw [h0] at h2
    have hX0 : (a.X i k : ℚ) ≤ 0 := by simpa using h2
    have : a.X i k = 0 := by exact_mod_cast le_antisymm hX0 (Nat.cast_nonneg _)
    omega
  · refine ⟨h1z, ?_⟩
    rw [h1z] at h1
    simpa using h1

/-- Witness for C5 at the concrete feasible instance `pW` / `aW`. -/
theorem C5_moq_linkage_witness :
    (pW.MOQ 1 * (aW.z 1 1 : ℚ) ≤ (aW.X 1 1 : ℚ) ∧
      (aW.X 1 1 : ℚ) ≤ 100000 * (aW.z 1 1 : ℚ)) ∧
    (0 < aW.X 1 1 → aW.z 1 1 = 1 ∧ pW.MOQ 1 ≤ (aW.X 1 1 : ℚ)) ∧
    (aW.X 1 1 = 0 → aW.z 1 1 = 0 ∨ aW.z 1 1 = 1) :=
  C5_moq_linkage pW aW aW_feasible 1 1 (by decide) (by decide)

/-- Claim C6 (code divergence): `create_model` performs no input
validation at all (it does not even receive the data), and a model
instance over `n_months = 0`, `n_scenarios = 0` is produced silently:
under the embedding, the resulting constraint families are all vacuous
and e.g. the all-zero assignment is feasible, instead of any validation
error being raised before construction. -/
theorem C6_zero_index_sets_build_silently : MFeasible pZero aW := by decide

/-- Claim C9: `convert_data` ignores every one of its twelve parameters
and always returns the hard-coded single-product fixture dictionary. -/
theorem C9_convert_data_constant
    (n1 n2 : ℕ) (D1 SP1 UP1 W1 O1 L1 : NDArr) (M1 : ℤ) (B1 : NDArr) (U1 : ℚ) (Lb1 : NDArr)
    (m1 m2 : ℕ) (D2 SP2 UP2 W2 O2 L2 : NDArr) (M2 : ℤ) (B2 : NDArr) (U2 : ℚ) (Lb2 : NDArr) :
    convert_data n1 n2 D1 SP1 UP1 W1 O1 L1 M1 B1 U1 Lb1 = fixtureModelData ∧
    convert_data n1 n2 D1 SP1 UP1 W1 O1 L1 M1 B1 U1 Lb1 =
      convert_data m1 m2 D2 SP2 UP2 W2 O2 L2 M2 B2 U2 Lb2 :=
  ⟨rfl, rfl⟩

/-- Claim C10: in every feasible solution of the multi-product model the
sold volume is bounded by stock and by demand, as a consequence of the
stock-split and demand-split equalities and the nonnegative domains. -/
theorem C10_volume_bounded (p : MParams) (a : MVars) (h : MFeasible p a)
    (i j k : ℕ) (hi : i ∈ p.I) (hj : j ∈ p.J) (hk : k ∈ p.K) :
    a.V i j k ≤ a.S i j k ∧ a.V i j k ≤ p.D i j k := by
  obtain ⟨hdom, hsd, _, _, _, _, hvd, _, _⟩ := h
  have hd := hdom.1 i hi j hj k hk
  have h1 := hsd i hi j hj k hk
  have h2 := hvd i hi j hj k hk
  constructor
  · linarith [hd.2.2.1]
  · linarith [hd.2.2.2]

/-- Witness for C10 at the concrete feasible instance `pW` / `aW`. -/
theorem C10_volume_bounded_witness :
    aW.V 1 1 1 ≤ aW.S 1 1 1 ∧ aW.V 1 1 1 ≤ pW.D 1 1 1 :=
  C10_volume_bounded pW aW aW_feasible 1 1 1 (by decide) (by decide) (by decide)

/-- Claim C7, counterexample: on the empty 1-D array (which has no cells,
hence vacuously no missing cells) the round trip does not return the
array: the inverse conversion fails (numpy `max` of an empty array
raises), so `dok_to_array (array_to_dok X)` is `none`, not `X`. -/
theorem C7_empty_array_roundtrip_fails :
    arrEmpty.wf ∧ arrEmpty.shape.length = 1 ∧
    dok_to_array (array_to_dok arrEmpty) (-1) = none :=
  ⟨rfl, rfl, rfl⟩

/-- Claim C7, amended: for every well-formed numpy array with at least
one cell (every axis length at least 1) and no missing cells, both 1-D
and N-D, the round trip `dok_to_array (array_to_dok X)` with the default
index offset -1 returns an array equal to X (same shape, same cells). -/
theorem C7_roundtrip_nonempty (a : NDArr) (hwf : a.wf) (hnd : a.shape ≠ [])
    (hpos : ∀ n ∈ a.shape, 1 ≤ n) (hfull : ∀ c ∈ a.data, c.isSome) :
    dok_to_array (array_to_dok a) (-1) = some a := by
  obtain ⟨sh, data⟩ := a
  have hwf' : data.length = sh.prod := hwf
  have hnd' : sh ≠ [] := hnd
  have hpos' : ∀ n ∈ sh, 1 ≤ n := hpos
  rw [dok_to_array]
  have hadj : (array_to_dok ⟨sh, data⟩).map (fun pr => (pr.1.adjust (-1), pr.2))
      = ((multiIdx sh).map fun l => l.map fun c : ℕ => (c : ℤ) - 1).zip data := by
    cases sh with
    | nil => exact absurd rfl hnd'
    | cons n ns =>
      cases ns with
      | nil =>
        have hdl : data.length = n := by simpa using hwf'
        rw [array_to_dok, if_neg (by simp)]
        rw [List.map_map]
        have hfun : ((fun pr : DokKey × Option ℚ => (pr.1.adjust (-1), pr.2)) ∘
              fun pr : ℕ × Option ℚ => (DokKey.int ((pr.1 : ℤ) + 1), pr.2))
            = fun pr : ℕ × Option ℚ => ((fun i : ℕ => [(i : ℤ)]) pr.1, pr.2) := by
          funext pr
          show ((DokKey.int ((pr.1 : ℤ) + 1)).adjust (-1), pr.2) = ([(pr.1 : ℤ)], pr.2)
          rw [DokKey.adjust]
          norm_num
        rw [hfun, zip_map_fst (fun i : ℕ => [(i : ℤ)]) (List.range data.length) data]
        congr 1
        rw [multiIdx_single, List.map_map, hdl]
        apply List.map_congr_left
        intro i hi
        show [(i : ℤ)] = ((fun l : List ℕ => l.map fun c : ℕ => (c : ℤ) - 1) ∘
          fun i : ℕ => [i + 1]) i
        show [(i : ℤ)] = [((i + 1 : ℕ) : ℤ) - 1]
        congr 1
        push_cast
        ring
      | cons m ms =>
        rw [array_to_dok, if_pos (by simp)]
        have hfun : (fun pr : DokKey × Option ℚ => (pr.1.adjust (-1), pr.2))
            = fun pr : DokKey × Option ℚ =>
                ((fun k : DokKey => k.adjust (-1)) pr.1, pr.2) := rfl
        rw [hfun, zip_map_fst (fun k : DokKey => k.adjust (-1))]
        congr 1
        rw [List.map_map]
        apply List.map_congr_left
        intro t ht
        show (DokKey.tup (t.map Int.ofNat)).adjust (-1)
          = t.map fun c : ℕ => (c : ℤ) - 1
        rw [DokKey.adjust, List.map_map]
        apply List.map_congr_left
        intro c hc
        show (Int.ofNat c) + (-1) = (c : ℤ) - 1
        simp
        ring
  rw [hadj]
  exact dokAssemble_roundtrip sh data hwf' hnd' hpos'

/-- Witness for the amended C7 theorem on a concrete 2x2 array. -/
theorem C7_roundtrip_nonempty_witness :
    dok_to_array (array_to_dok arrW) (-1) = some arrW :=
  C7_roundtrip_nonempty arrW (by decide) (by decide) (by decide) (by decide)

/-- Claim C8, counterexample: on the nonempty, arity-consistent keyed map
{1: 5} with caller-specified index offset 0, the inferred shape is
`max - 0 = (1,)` but the adjusted key coordinate 1 is out of bounds for
that shape, so the assignment raises IndexError (`none` here): no array
with the described shape and cells is returned. -/
theorem C8_offset_zero_fails : dok_to_array [(DokKey.int 1, some 5)] 0 = none := rfl

/-- Claim C8, amended: for every non-empty keyed map whose keys all have
the same tuple arity (at least 1), under a negative index offset that
leaves every adjusted key coordinate nonnegative, and with no two keys
addressing the same adjusted coordinate, `dok_to_array` succeeds and
returns an array whose shape along each axis is the maximum adjusted key
coordinate minus the offset (equivalently, shape + offset is attained and
bounds every key), in which every cell addressed by a key holds that
key's value and every cell not addressed by any key holds the
missing-value sentinel NaN (`none`), not zero. -/
theorem C8_dok_to_array_spec (dok : List (DokKey × Option ℚ)) (off : ℤ) (ar : ℕ)
    (hne : dok ≠ []) (har : 0 < ar)
    (hkeys : ∀ pr ∈ dok, (DokKey.adjust pr.1 off).length = ar)
    (hoff : off < 0)
    (hnn : ∀ pr ∈ dok, ∀ c ∈ DokKey.adjust pr.1 off, 0 ≤ c)
    (hnodup : (dok.map fun pr => DokKey.adjust pr.1 off).Nodup) :
    (dok_to_array dok off).isSome = true ∧
    ∀ res : NDArr, dok_to_array dok off = some res →
      res.shape.length = ar ∧
      res.data.length = res.shape.prod ∧
      (∀ pr ∈ dok, List.Forall₂ (fun (c : ℤ) (n : ℕ) => c ≤ (n : ℤ) + off)
        (DokKey.adjust pr.1 off) res.shape) ∧
      (∀ ax, ax < ar → ∃ pr ∈ dok,
        (DokKey.adjust pr.1 off).getD ax 0 = (res.shape.getD ax 0 : ℤ) + off) ∧
      (∀ pr ∈ dok, ∃ q, flatIdx (DokKey.adjust pr.1 off) res.shape = some q ∧
        res.data.getD q none = pr.2) ∧
      (∀ q, q < res.shape.prod →
        (∀ pr ∈ dok, flatIdx (DokKey.adjust pr.1 off) res.shape ≠ some q) →
        res.data.getD q none = none) := by
  have hK : (dok.map fun pr => (pr.1.adjust off, pr.2)).map Prod.fst
      = dok.map fun pr => pr.1.adjust off := by
    rw [List.map_map]
    rfl
  have hKne : (dok.map fun pr => pr.1.adjust off) ≠ [] := by
    intro hcon
    exact hne (List.map_eq_nil_iff.mp hcon)
  have hKlen : ∀ l ∈ (dok.map fun pr => pr.1.adjust off), l.length = ar := by
    intro l hl
    obtain ⟨pr, hpr, rfl⟩ := List.mem_map.mp hl
    exact hkeys pr hpr
  obtain ⟨mx, hmax0, hmxlen, hub, hattain⟩ :=
    npMaxAxis0_spec (dok.map fun pr => pr.1.adjust off) ar hKne har hKlen
  have hmxnn : ∀ ax, ax < ar → 0 ≤ mx.getD ax 0 := by
    intro ax hax
    obtain ⟨l, hl, heq⟩ := hattain ax hax
    obtain ⟨pr, hpr, rfl⟩ := List.mem_map.mp hl
    rw [← heq]
    have hmem : (DokKey.adjust pr.1 off).getD ax 0 ∈ DokKey.adjust pr.1 off := by
      rw [List.getD_eq_getElem _ 0 (by rw [hkeys pr hpr]; exact hax)]
      exact List.getElem_mem _
    exact hnn pr hpr _ hmem
  have hmxmem : ∀ m ∈ mx, 0 ≤ m := by
    intro m hm
    obtain ⟨ax, hax, rfl⟩ := List.mem_iff_getElem.mp hm
    rw [← List.getD_eq_getElem mx 0 hax]
    exact hmxnn ax (by rw [← hmxlen]; exact hax)
  have hfull : npFullShape (mx.map fun c => c - off)
      = some ((mx.map fun c => c - off).map Int.toNat) := by
    rw [npFullShape, if_pos]
    simp only [List.all_eq_true, List.mem_map]
    intro c hc
    obtain ⟨m, hm, rfl⟩ := hc
    simp only [decide_eq_true_eq]
    have := hmxmem m hm
    omega
  set shape := (mx.map fun c => c - off).map Int.toNat with hshape
  have hshape2 : shape = mx.map fun m => (m - off).toNat := by
    rw [hshape, List.map_map]
    rfl
  have hshlen : shape.length = ar := by
    rw [hshape2, List.length_map, hmxlen]
  have hshgetD : ∀ ax, ax < ar → (shape.getD ax 0 : ℤ) = mx.getD ax 0 - off := by
    intro ax hax
    rw [hshape2, getD_map' (fun m => (m - off).toNat) mx ax 0 0 (by omega)]
    have h0 := hmxnn ax hax
    omega
  have hkb : ∀ pr ∈ dok, List.Forall₂ (fun (x : ℤ) (n : ℕ) => 0 ≤ x ∧ x < (n : ℤ))
      (DokKey.adjust pr.1 off) shape := by
    intro pr hpr
    have hul : List.Forall₂ (· ≤ ·) (DokKey.adjust pr.1 off) mx :=
      hub _ (List.mem_map.mpr ⟨pr, hpr, rfl⟩)
    have hcomb := forall2_and_left hul (hnn pr hpr)
    rw [hshape2, List.forall₂_map_right_iff]
    exact hcomb.imp fun a b hab => by omega
  have hflat : ∀ pr ∈ dok, ∃ q, flatIdx (DokKey.adjust pr.1 off) shape = some q ∧
      q < shape.prod := fun pr hpr => flatIdx_bounds (hkb pr hpr)
  obtain ⟨assigns, hassigns⟩ :=
    mapM_option_attach
      (fun pr : List ℤ × Option ℚ => Option.map (fun q => (q, pr.2)) (flatIdx pr.1 shape))
      (dok.map fun pr => (pr.1.adjust off, pr.2))
      (by
        intro x hx
        obtain ⟨pr, hpr, rfl⟩ := List.mem_map.mp hx
        obtain ⟨q, hq, _⟩ := hflat pr hpr
        simp [hq])
  have hres : dok_to_array dok off
      = some ⟨shape, (List.range shape.prod).map (cellVal assigns)⟩ := by
    rw [dok_to_array]
    simp only [dokAssemble, hK, hmax0, hfull, hassigns]
  refine ⟨by rw [hres]; rfl, ?_⟩
  intro res hres2
  rw [hres] at hres2
  have hres3 := Option.some.inj hres2
  subst hres3
  have hadjnodup : (dok.map fun pr => (pr.1.adjust off, pr.2)).Nodup := by
    have hmapped : ((dok.map fun pr => (pr.1.adjust off, pr.2)).map Prod.fst).Nodup := by
      rw [hK]
      exact hnodup
    exact hmapped.of_map Prod.fst
  refine ⟨hshlen, by simp, ?_, ?_, ?_, ?_⟩
  · intro pr hpr
    have hul : List.Forall₂ (· ≤ ·) (DokKey.adjust pr.1 off) mx :=
      hub _ (List.mem_map.mpr ⟨pr, hpr, rfl⟩)
    have hcomb := forall2_and_left hul (hnn pr hpr)
    show List.Forall₂ _ (DokKey.adjust pr.1 off) shape
    rw [hshape2, List.forall₂_map_right_iff]
    exact hcomb.imp fun a b hab => by omega
  · intro ax hax
    obtain ⟨l, hl, heq⟩ := hattain ax hax
    obtain ⟨pr, hpr, rfl⟩ := List.mem_map.mp hl
    refine ⟨pr, hpr, ?_⟩
    show (DokKey.adjust pr.1 off).getD ax 0 = (shape.getD ax 0 : ℤ) + off
    rw [hshgetD ax hax, heq]
    ring
  · intro pr hpr
    obtain ⟨q, hq, hqlt⟩ := hflat pr hpr
    refine ⟨q, hq, ?_⟩
    show ((List.range shape.prod).map (cellVal assigns)).getD q none = pr.2
    rw [getD_map_range _ _ _ hqlt]
    have hfu : ((dok.map fun pr => (pr.1.adjust off, pr.2)).filter
          fun x => flatIdx x.1 shape == some q)
        = [(pr.1.adjust off, pr.2)] := by
      apply filter_unique _ _ hadjnodup
      · exact List.mem_map.mpr ⟨pr, hpr, rfl⟩
      · simp [hq]
      · intro y hy hpy
        obtain ⟨pr', hpr', rfl⟩ := List.mem_map.mp hy
        simp only [beq_iff_eq] at hpy
        have hkeq : DokKey.adjust pr'.1 off = DokKey.adjust pr.1 off :=
          flatIdx_inj shape _ _ q (hkb pr' hpr') (hkb pr hpr) hpy hq
        have hpr'' : pr' = pr := List.inj_on_of_nodup_map hnodup hpr' hpr hkeq
        rw [hpr'']
    have hfilter : (assigns.filter fun x => x.1 == q) = [(q, pr.2)] := by
      rw [filter_assigns _ assigns hassigns q, hfu]
      rfl
    rw [cellVal, hfilter]
    rfl
  · intro q hqlt hnone
    show ((List.range shape.prod).map (cellVal assigns)).getD q none = none
    rw [getD_map_range _ _ _ hqlt]
    have hfilter : (assigns.filter fun x => x.1 == q) = [] := by
      rw [filter_assigns _ assigns hassigns q]
      have hadjf : ((dok.map fun pr => (pr.1.adjust off, pr.2)).filter
          fun x => flatIdx x.1 shape == some q) = [] := by
        rw [List.filter_eq_nil_iff]
        intro y hy
        obtain ⟨pr, hpr, rfl⟩ := List.mem_map.mp hy
        simp only [beq_iff_eq]
        exact hnone pr hpr
      rw [hadjf]
      rfl
    rw [cellVal, hfilter]
    rfl

/-- Witness for the amended C8 theorem on a concrete two-key map of
tuple arity 2 with the default offset -1. -/
theorem C8_dok_to_array_spec_witness : (dok_to_array dokW (-1)).isSome = true :=
  (C8_dok_to_array_spec dokW (-1) 2 (by decide) (by decide) (by decide) (by decide)
    (by decide) (by decide)).1
